import Mathlib

/-!
# LfD-Actions: the DTW alignment engine (`src/src/dtw.cpp`)

A shallow embedding of `DTW::min_diff` and the per-frame cost functions it calls, followed by the
properties of the alignment distance that hold of it and the concrete inputs on which others fail.

Conventions of the embedding.

* `double` values (and the `float` values inside `quaternion_distance`) are idealised as elements
  of a linearly ordered field `R`; the theorems take `R = ℝ`.  The two `<cmath>` primitives the
  code uses, `sqrt` and the constant `M_PI`, are parameters of the definitions and are instantiated
  with `Real.sqrt` and `Real.pi` in every theorem.  `abs` is the absolute value of `R`.
* A `while` loop carries a fuel: the number of times its condition may be tested.  Running out of
  fuel is `none`.  A statement "the code returns `v`" reads: there is `N` such that the model
  returns `some v` for every fuel `≥ N`.
* The variable-length arrays `diffs` and `costs` are matrices of cells that start unwritten; a read
  of an unwritten cell or an access outside `[0, rows) × [0, cols)` is `none`.
* Iterator dereferences and `position[i]` are list look-ups; past the end is `none`.
* `int` counters are natural numbers.  The subtractions `r - 1`, `c - 1` occur with `r, c ≥ 1`, and
  `rows - 1`, `cols - 1` are only considered for non-empty trajectories.

Limits of the idealisation.  Arithmetic in `R` is exact, so the exit of the `while` loops of
`pos_dist` is an exit of the idealised loops: in binary64 the subtraction `diff -= two_pi` is
absorbed once `diff` is of the order of `1e17`, and the first loop then never exits.  The arrays
`diffs` and `costs` are stack allocations in the source; their capacity is not modelled.  Whether
the program itself terminates on every input is therefore not a statement about this model, and
none is made; the results below describe the value computed, under exact arithmetic.
-/

namespace DTW

/-! ## Messages -/

/-- The message type `geometry_msgs::Point`. -/
structure Point (R : Type) where
  x : R
  y : R
  z : R

/-- The message type `geometry_msgs::Quaternion`. -/
structure Quaternion (R : Type) where
  x : R
  y : R
  z : R
  w : R

/-- The message type `geometry_msgs::Pose`. -/
structure Pose (R : Type) where
  position : Point R
  orientation : Quaternion R

/-- The message type `sensor_msgs::JointState`; only the `position` array is read by the metric. -/
structure JointState (R : Type) where
  position : List R

/-- Modelled from the spec: the `Action` class (`action.h` is not among the sources).  A trajectory
is a sequence of poses and a sequence of joint states, paired by index; `pose_begin()` and
`joint_begin()` iterate over them and `size()` is the frame count. -/
structure Action (R : Type) where
  poses : List (Pose R)
  joints : List (JointState R)

/-- The method `Action::size()`: the number of frames. -/
def Action.size {R : Type} (a : Action R) : Nat := a.poses.length

/-- The data-model invariant of a trajectory: one joint state per pose, and every joint state
carries at least the `NUM_JOINTS` angles the metric indexes. -/
def Action.WellFormed {R : Type} (a : Action R) : Prop :=
  a.joints.length = a.poses.length ∧ ∀ js ∈ a.joints, 8 ≤ js.position.length

/-! ## Control flow and arrays -/

/-- Iterations `i, i+1, ..., i+n-1` of a counted `for` loop over a state that may fail. -/
def forLoop {σ : Type} (body : Nat → σ → Option σ) : Nat → Nat → σ → Option σ
  | 0, _, s => some s
  | n + 1, i, s => (body i s).bind (forLoop body n (i + 1))

/-- The loop `for (int i = lo; i < hi; i++) body`. -/
def forRange {σ : Type} (lo hi : Nat) (body : Nat → σ → Option σ) (s : σ) : Option σ :=
  forLoop body (hi - lo) lo s

/-- A `double m[rows][cols]` local array: cells are unwritten (`none`) until assigned. -/
structure Mat (R : Type) where
  rows : Nat
  cols : Nat
  cell : Nat → Nat → Option R

/-- The declaration `double m[rows][cols];`: nothing is written yet.  The source allocates the
array on the stack; the capacity of the stack is not modelled. -/
def Mat.new {R : Type} (rows cols : Nat) : Mat R := ⟨rows, cols, fun _ _ => none⟩

/-- The read `m[r][c]`: fails outside the array and on an unwritten cell. -/
def Mat.get {R : Type} (m : Mat R) (r c : Nat) : Option R :=
  if r < m.rows ∧ c < m.cols then m.cell r c else none

/-- The write `m[r][c] = v`: fails outside the array. -/
def Mat.set {R : Type} (m : Mat R) (r c : Nat) (v : R) : Option (Mat R) :=
  if r < m.rows ∧ c < m.cols then
    some ⟨m.rows, m.cols, fun i j => if i = r ∧ j = c then some v else m.cell i j⟩
  else none

/-! ## The cost functions -/

section Code

variable {R : Type} [LinearOrderedField R]

/-- The constant of `#define NUM_JOINTS 8`. -/
def NUM_JOINTS : Nat := 8

/-- The constant of `#define JOINT_WEIGHT 10`. -/
def JOINT_WEIGHT : R := 10

/-- The loop `while (diff > M_PI) diff -= two_pi;` of `DTW::pos_dist`.  The subtraction is exact
in `R`; the rounding of binary64, under which it can leave `diff` unchanged, is not modelled. -/
def pos_dist_while_gt (M_PI two_pi : R) : Nat → R → Option R
  | 0, _ => none
  | fuel + 1, diff =>
    if diff > M_PI then pos_dist_while_gt M_PI two_pi fuel (diff - two_pi) else some diff

/-- The loop `while (diff < M_PI) diff += two_pi;` of `DTW::pos_dist`. -/
def pos_dist_while_lt (M_PI two_pi : R) : Nat → R → Option R
  | 0, _ => none
  | fuel + 1, diff =>
    if diff < M_PI then pos_dist_while_lt M_PI two_pi fuel (diff + two_pi) else some diff

/-- The function `DTW::pos_dist` (dtw.cpp:111-125). -/
def pos_dist (M_PI : R) (fuel : Nat) (x y : R) : Option R :=
  let two_pi := 2 * M_PI
  let diff := |y - x|
  (pos_dist_while_gt M_PI two_pi fuel diff).bind fun diff =>
  pos_dist_while_lt M_PI two_pi fuel diff

/-- The function `DTW::joint_distance` (dtw.cpp:100-109). -/
def joint_distance (M_PI : R) (fuel : Nat) (x y : JointState R) : Option R :=
  (forRange 6 NUM_JOINTS
    (fun i pos_diff =>
      x.position[i]?.bind fun xi =>
      y.position[i]?.bind fun yi =>
      (pos_dist M_PI fuel xi yi).bind fun d =>
      some (pos_diff + d))
    0).bind fun pos_diff =>
  some (pos_diff * JOINT_WEIGHT)

/-- The function `DTW::quaternion_distance` (dtw.cpp:88-98): the norm of `inv * dv * -2.0`. -/
def quaternion_distance (sqrt : R → R) (c d : Quaternion R) : R :=
  let dv0 := d.w
  let dv1 := d.x
  let dv2 := d.y
  let dv3 := d.z
  let m0 := ((-c.x) * dv0 + c.w * dv1 + (-c.z) * dv2 + c.y * dv3) * (-2)
  let m1 := ((-c.y) * dv0 + c.z * dv1 + (-c.w) * dv2 + (-c.x) * dv3) * (-2)
  let m2 := ((-c.z) * dv0 + (-c.y) * dv1 + (-c.x) * dv2 + c.w * dv3) * (-2)
  sqrt (m0 ^ 2 + m1 ^ 2 + m2 ^ 2)

/-- The function `DTW::position_distance` (dtw.cpp:78-86). -/
def position_distance (sqrt : R → R) (x y : Point R) : R :=
  let dx := (y.x - x.x) ^ 2
  let dy := (y.y - x.y) ^ 2
  let dz := (y.z - x.z) ^ 2
  let dist := sqrt (dx + dy + dz)
  dist

/-- The function `DTW::distance` (dtw.cpp:71-76). -/
def distance (sqrt : R → R) (M_PI : R) (fuel : Nat) (p1 p2 : Pose R) (js1 js2 : JointState R) :
    Option R :=
  (joint_distance M_PI fuel js1 js2).bind fun jd =>
  some (position_distance sqrt p1.position p2.position
    + quaternion_distance sqrt p1.orientation p2.orientation
    + jd)

/-- The function `DTW::min` (dtw.cpp:63-69). -/
def min (x y z : R) : R :=
  if x < y then (if x < z then x else z) else (if y < z then y else z)

/-- The body of the inner loop at dtw.cpp:31-32: dereference the four iterators (frame `row` of
`x`, frame `col` of `y`) and take their `distance`. -/
def frame_distance (sqrt : R → R) (M_PI : R) (fuel : Nat) (x y : Action R) (row col : Nat) :
    Option R :=
  x.poses[row]?.bind fun xp =>
  y.poses[col]?.bind fun yp =>
  x.joints[row]?.bind fun xj =>
  y.joints[col]?.bind fun yj =>
  distance sqrt M_PI fuel xp yp xj yj

/-- The function `DTW::min_diff` (dtw.cpp:17-61). -/
def min_diff (sqrt : R → R) (M_PI : R) (fuel : Nat) (x y : Action R) : Option R :=
  let rows := x.size
  let cols := y.size
  let diffs : Mat R := Mat.new rows cols
  let costs : Mat R := Mat.new rows cols
  -- Getting the differences
  (forRange 0 rows
    (fun row diffs =>
      forRange 0 cols
        (fun col diffs =>
          (frame_distance sqrt M_PI fuel x y row col).bind fun d => diffs.set row col d)
        diffs)
    diffs).bind fun diffs =>
  -- Setting the first row of costs
  (forRange 0 cols
    (fun c costs => (diffs.get 0 c).bind fun v => costs.set 0 c v)
    costs).bind fun costs =>
  -- Setting the first column of costs
  (forRange 0 rows
    (fun r costs => (diffs.get r 0).bind fun v => costs.set r 0 v)
    costs).bind fun costs =>
  -- Filling in the costs
  (forRange 1 rows
    (fun r costs =>
      forRange 1 cols
        (fun c costs =>
          (diffs.get r c).bind fun drc =>
          (diffs.get (r - 1) (c - 1)).bind fun a =>
          (diffs.get (r - 1) c).bind fun b =>
          (diffs.get r (c - 1)).bind fun d =>
          costs.set r c (drc + DTW.min a b d))
        costs)
    costs).bind fun costs =>
  -- Returning the minimum difference between the two Actions
  costs.get (rows - 1) (cols - 1)

end Code

/-! ## Specification-side definitions -/

section Spec

variable {R : Type} [LinearOrderedField R]

/-- The cumulative-cost matrix as the specification words it: the boundary row and column are the
raw per-frame costs and an interior cell adds the least of its three predecessors in the
cumulative matrix itself. -/
def spec_cost (diff : Nat → Nat → R) : Nat → Nat → R
  | 0, j => diff 0 j
  | i + 1, 0 => diff (i + 1) 0
  | i + 1, j + 1 =>
    diff (i + 1) (j + 1)
      + Min.min (spec_cost diff i j) (Min.min (spec_cost diff i (j + 1)) (spec_cost diff (i + 1) j))

/-- The value `DTW::min_diff` returns, written directly in terms of the per-frame costs `d`. -/
def closed_form (rows cols : Nat) (d : Nat → Nat → R) : R :=
  if rows = 1 ∨ cols = 1 then d (rows - 1) (cols - 1)
  else d (rows - 1) (cols - 1)
    + Min.min (d (rows - 2) (cols - 2)) (Min.min (d (rows - 2) (cols - 1)) (d (rows - 1) (cols - 2)))

/-- The content of the `costs` array when `DTW::min_diff` returns. -/
def cost_cell (d : Nat → Nat → R) (i j : Nat) : R :=
  if i = 0 ∨ j = 0 then d i j
  else d i j + DTW.min (d (i - 1) (j - 1)) (d (i - 1) j) (d i (j - 1))

/-- A matrix of the given shape in which every cell selected by `S` has been written with the
value `h` prescribes. -/
def Mat.Holds (m : Mat R) (rows cols : Nat) (S : Nat → Nat → Prop) (h : Nat → Nat → R) : Prop :=
  m.rows = rows ∧ m.cols = cols ∧ ∀ i j, S i j → m.cell i j = some (h i j)

/-- The point `p` displaced by the offset `(ox, oy, oz)`. -/
def Point.shift (p : Point R) (ox oy oz : R) : Point R := ⟨p.x + ox, p.y + oy, p.z + oz⟩

/-- The trajectory `a` with the position of frame `i` displaced by `(ox, oy, oz)`; orientations
and joint states are left as they are. -/
def Action.displace (a : Action R) (i : Nat) (ox oy oz : R) : Action R :=
  ⟨a.poses.modify (fun p => ⟨p.position.shift ox oy oz, p.orientation⟩) i, a.joints⟩

/-- The per-frame cost read back as a number (0 where the cell is not available). -/
def frame_cost (sqrt : R → R) (M_PI : R) (fuel : Nat) (x y : Action R) (i j : Nat) : R :=
  (frame_distance sqrt M_PI fuel x y i j).getD 0

/-! ### Concrete trajectories used to evaluate the code -/

/-- A joint state with all eight angles at zero. -/
def zeroJoints : JointState R := ⟨[0, 0, 0, 0, 0, 0, 0, 0]⟩

/-- A joint state whose arm joints 0 to 5 are `c` and whose finger joints 6 and 7 are `a`, `b`. -/
def jointsWith (c a b : R) : JointState R := ⟨[c, c, c, c, c, c, a, b]⟩

/-- The identity orientation `(x, y, z, w) = (0, 0, 0, 1)`. -/
def identityQ : Quaternion R := ⟨0, 0, 0, 1⟩

/-- A pose on the x axis with the given orientation. -/
def poseAt (px : R) (q : Quaternion R) : Pose R := ⟨⟨px, 0, 0⟩, q⟩

/-- A one-frame trajectory: position `(px, 0, 0)`, orientation `q`, all joints zero. -/
def oneFrame (px : R) (q : Quaternion R) : Action R := ⟨[poseAt px q], [zeroJoints]⟩

/-- Two frames, at `(5, 0, 0)` and at the origin; identity orientation, all joints zero. -/
def twoFrames : Action R :=
  ⟨[poseAt 5 identityQ, poseAt 0 identityQ], [zeroJoints, zeroJoints]⟩

/-- Three frames, all at the origin; identity orientation, all joints zero. -/
def threeFrames : Action R :=
  ⟨[poseAt 0 identityQ, poseAt 0 identityQ, poseAt 0 identityQ],
    [zeroJoints, zeroJoints, zeroJoints]⟩

/-- Three frames, the first at `(a, 0, 0)` and the others at the origin; identity orientation, all
joints zero. -/
def threeFramesFrom (a : R) : Action R :=
  ⟨[poseAt a identityQ, poseAt 0 identityQ, poseAt 0 identityQ],
    [zeroJoints, zeroJoints, zeroJoints]⟩

/-- The unit quaternion `(x, y, z, w) = (0, 4/5, 0, 3/5)`. -/
def quatA : Quaternion R := ⟨0, 4 / 5, 0, 3 / 5⟩

/-- The unit quaternion `(x, y, z, w) = (3/5, 4/5, 0, 0)`. -/
def quatC : Quaternion R := ⟨3 / 5, 4 / 5, 0, 0⟩

/-- The unit quaternion `(x, y, z, w) = (0, 0, 4/5, 3/5)`. -/
def quatD : Quaternion R := ⟨0, 0, 4 / 5, 3 / 5⟩

end Spec

/-! ## Loops and arrays -/

section Loops

variable {R : Type}

theorem forLoop_inv {σ : Type} (body : Nat → σ → Option σ) (Inv : Nat → σ → Prop) :
    ∀ (n i0 : Nat) (s : σ), Inv i0 s →
      (∀ k t, i0 ≤ k → k < i0 + n → Inv k t → ∃ t', body k t = some t' ∧ Inv (k + 1) t') →
      ∃ s', forLoop body n i0 s = some s' ∧ Inv (i0 + n) s' := by
  intro n
  induction n with
  | zero => intro i0 s h0 _; exact ⟨s, rfl, by simpa using h0⟩
  | succ n ih =>
    intro i0 s h0 hstep
    obtain ⟨t, ht, hInv⟩ := hstep i0 s (le_refl _) (by omega) h0
    obtain ⟨s', hs', hInv'⟩ := ih (i0 + 1) t hInv
      (fun k u hk1 hk2 hu => hstep k u (by omega) (by omega) hu)
    refine ⟨s', ?_, ?_⟩
    · simp [forLoop, ht, hs']
    · have : i0 + (n + 1) = i0 + 1 + n := by omega
      rw [this]; exact hInv'

theorem forRange_inv {σ : Type} (body : Nat → σ → Option σ) (Inv : Nat → σ → Prop)
    (lo hi : Nat) (hle : lo ≤ hi) (s : σ) (h0 : Inv lo s)
    (hstep : ∀ k t, lo ≤ k → k < hi → Inv k t → ∃ t', body k t = some t' ∧ Inv (k + 1) t') :
    ∃ s', forRange lo hi body s = some s' ∧ Inv hi s' := by
  obtain ⟨s', hs', hInv⟩ := forLoop_inv body Inv (hi - lo) lo s h0
    (fun k t hk1 hk2 ht => hstep k t hk1 (by omega) ht)
  refine ⟨s', hs', ?_⟩
  have : lo + (hi - lo) = hi := by omega
  rw [this] at hInv; exact hInv

theorem Mat.Holds.mono {R : Type} [LinearOrderedField R] {m : Mat R} {rows cols : Nat}
    {S S' : Nat → Nat → Prop} {h : Nat → Nat → R}
    (hm : m.Holds rows cols S h) (hS : ∀ i j, S' i j → S i j) : m.Holds rows cols S' h :=
  ⟨hm.1, hm.2.1, fun i j hij => hm.2.2 i j (hS i j hij)⟩

theorem Mat.Holds.set {R : Type} [LinearOrderedField R] {m : Mat R} {rows cols : Nat}
    {S : Nat → Nat → Prop} {h : Nat → Nat → R}
    (hm : m.Holds rows cols S h) {r c : Nat} (hr : r < rows) (hc : c < cols) :
    ∃ m', m.set r c (h r c) = some m' ∧ m'.Holds rows cols (fun i j => S i j ∨ (i = r ∧ j = c)) h := by
  obtain ⟨h1, h2, h3⟩ := hm
  refine ⟨⟨m.rows, m.cols, fun i j => if i = r ∧ j = c then some (h r c) else m.cell i j⟩, ?_,
    h1, h2, ?_⟩
  · simp [Mat.set, h1, h2, hr, hc]
  · intro i j hij
    by_cases hrc : i = r ∧ j = c
    · simp [hrc]
    · rcases hij with hij | hij
      · simp only [hrc, if_false]; exact h3 i j hij
      · exact absurd hij hrc

theorem Mat.Holds.get {R : Type} [LinearOrderedField R] {m : Mat R} {rows cols : Nat}
    {S : Nat → Nat → Prop} {h : Nat → Nat → R}
    (hm : m.Holds rows cols S h) {i j : Nat} (hi : i < rows) (hj : j < cols) (hS : S i j) :
    m.get i j = some (h i j) := by
  obtain ⟨h1, h2, h3⟩ := hm
  simp [Mat.get, h1, h2, hi, hj, h3 i j hS]

theorem Mat.new_holds {R : Type} [LinearOrderedField R] (rows cols : Nat) (h : Nat → Nat → R) :
    (Mat.new rows cols : Mat R).Holds rows cols (fun _ _ => False) h :=
  ⟨rfl, rfl, fun _ _ hf => hf.elim⟩

end Loops

section Fill

variable {R : Type} [LinearOrderedField R]

theorem min_eq_min (x y z : R) : DTW.min x y z = Min.min x (Min.min y z) := by
  unfold DTW.min
  simp only [min_def]
  split_ifs <;> first | rfl | (apply le_antisymm <;> linarith)

/-- The first pair of loops of `min_diff`: every cell of `diffs` receives its frame cost. -/
theorem fill_diffs (rows cols : Nat) (f : Nat → Nat → Option R) (g : Nat → Nat → R)
    (hg : ∀ i, i < rows → ∀ j, j < cols → f i j = some (g i j)) :
    ∃ D : Mat R,
      forRange 0 rows
        (fun row diffs =>
          forRange 0 cols (fun col diffs => (f row col).bind fun d => diffs.set row col d) diffs)
        (Mat.new rows cols) = some D
      ∧ D.Holds rows cols (fun i j => i < rows ∧ j < cols) g := by
  obtain ⟨D, hD, hInv⟩ := forRange_inv
    (fun row diffs =>
      forRange 0 cols (fun col diffs => (f row col).bind fun d => Mat.set diffs row col d) diffs)
    (fun r (m : Mat R) => m.Holds rows cols (fun i j => i < r ∧ j < cols) g)
    0 rows (Nat.zero_le _) (Mat.new rows cols)
    ((Mat.new_holds rows cols g).mono (fun i j h => by omega))
    (by
      intro r m _ hr hm
      obtain ⟨m', hm', hInv'⟩ := forRange_inv
        (fun col diffs => (f r col).bind fun d => Mat.set diffs r col d)
        (fun c (m : Mat R) => m.Holds rows cols (fun i j => (i < r ∧ j < cols) ∨ (i = r ∧ j < c)) g)
        0 cols (Nat.zero_le _) m
        (hm.mono (fun i j h => by omega))
        (by
          intro c t _ hc ht
          obtain ⟨t', ht', hH⟩ := ht.set hr hc
          refine ⟨t', ?_, hH.mono (fun i j h => by omega)⟩
          simp [hg r hr c hc, ht'])
      exact ⟨m', hm', hInv'.mono (fun i j h => by omega)⟩)
  exact ⟨D, hD, hInv⟩

/-- The three loops that write `costs`, reading a fully written `diffs`. -/
theorem fill_costs (rows cols : Nat) (hrows : 1 ≤ rows) (hcols : 1 ≤ cols) (g : Nat → Nat → R)
    (D : Mat R) (hD : D.Holds rows cols (fun i j => i < rows ∧ j < cols) g) :
    ∃ C : Mat R,
      ((forRange 0 cols (fun c costs => (D.get 0 c).bind fun v => costs.set 0 c v)
          (Mat.new rows cols)).bind fun costs =>
        (forRange 0 rows (fun r costs => (D.get r 0).bind fun v => costs.set r 0 v)
          costs).bind fun costs =>
        forRange 1 rows
          (fun r costs =>
            forRange 1 cols
              (fun c costs =>
                (D.get r c).bind fun drc =>
                (D.get (r - 1) (c - 1)).bind fun a =>
                (D.get (r - 1) c).bind fun b =>
                (D.get r (c - 1)).bind fun d =>
                costs.set r c (drc + DTW.min a b d))
              costs)
          costs) = some C
      ∧ C.Holds rows cols (fun i j => i < rows ∧ j < cols) (cost_cell g) := by
  -- first row
  obtain ⟨C1, hC1, hI1⟩ := forRange_inv
    (fun c costs => (D.get 0 c).bind fun v => Mat.set costs 0 c v)
    (fun c (m : Mat R) => m.Holds rows cols (fun i j => i = 0 ∧ j < c) (cost_cell g))
    0 cols (Nat.zero_le _) (Mat.new rows cols)
    ((Mat.new_holds rows cols _).mono (fun i j h => by omega))
    (by
      intro c t _ hc ht
      obtain ⟨t', ht', hH⟩ := ht.set (r := 0) (by omega) hc
      refine ⟨t', ?_, hH.mono (fun i j h => by omega)⟩
      have hv : cost_cell g 0 c = g 0 c := by simp [cost_cell]
      beta_reduce
      rw [hD.get (by omega) hc ⟨by omega, hc⟩]
      simpa [hv] using ht')
  -- first column
  obtain ⟨C2, hC2, hI2⟩ := forRange_inv
    (fun r costs => (D.get r 0).bind fun v => Mat.set costs r 0 v)
    (fun r (m : Mat R) => m.Holds rows cols
      (fun i j => (i = 0 ∧ j < cols) ∨ (j = 0 ∧ i < r)) (cost_cell g))
    0 rows (Nat.zero_le _) C1
    (hI1.mono (fun i j h => by omega))
    (by
      intro r t _ hr ht
      obtain ⟨t', ht', hH⟩ := ht.set (c := 0) hr (by omega)
      refine ⟨t', ?_, hH.mono (fun i j h => by omega)⟩
      have hv : cost_cell g r 0 = g r 0 := by simp [cost_cell]
      beta_reduce
      rw [hD.get hr (by omega) ⟨hr, by omega⟩]
      simpa [hv] using ht')
  -- interior
  obtain ⟨C3, hC3, hI3⟩ := forRange_inv
    (fun r costs =>
      forRange 1 cols
        (fun c costs =>
          (D.get r c).bind fun drc =>
          (D.get (r - 1) (c - 1)).bind fun a =>
          (D.get (r - 1) c).bind fun b =>
          (D.get r (c - 1)).bind fun d =>
          Mat.set costs r c (drc + DTW.min a b d))
        costs)
    (fun r (m : Mat R) => m.Holds rows cols
      (fun i j => i < rows ∧ j < cols ∧ (i = 0 ∨ j = 0 ∨ i < r)) (cost_cell g))
    1 rows hrows C2
    (hI2.mono (fun i j h => by omega))
    (by
      intro r m hr1 hr hm
      obtain ⟨m', hm', hInv'⟩ := forRange_inv
        (fun c costs =>
          (D.get r c).bind fun drc =>
          (D.get (r - 1) (c - 1)).bind fun a =>
          (D.get (r - 1) c).bind fun b =>
          (D.get r (c - 1)).bind fun d =>
          Mat.set costs r c (drc + DTW.min a b d))
        (fun c (m : Mat R) => m.Holds rows cols
          (fun i j => i < rows ∧ j < cols ∧ (i = 0 ∨ j = 0 ∨ i < r ∨ (i = r ∧ j < c)))
          (cost_cell g))
        1 cols hcols m
        (hm.mono (fun i j h => by omega))
        (by
          intro c t hc1 hc ht
          obtain ⟨t', ht', hH⟩ := ht.set hr hc
          refine ⟨t', ?_, hH.mono (fun i j h => by omega)⟩
          have hv : cost_cell g r c
              = g r c + DTW.min (g (r - 1) (c - 1)) (g (r - 1) c) (g r (c - 1)) := by
            have h1 : ¬ (r = 0 ∨ c = 0) := by omega
            simp [cost_cell, h1]
          beta_reduce
          rw [hD.get hr hc ⟨hr, hc⟩,
            hD.get (i := r - 1) (j := c - 1) (by omega) (by omega) ⟨by omega, by omega⟩,
            hD.get (i := r - 1) (by omega) hc ⟨by omega, hc⟩,
            hD.get (j := c - 1) hr (by omega) ⟨hr, by omega⟩]
          simpa [hv] using ht')
      exact ⟨m', hm', hInv'.mono (fun i j h => by omega)⟩)
  refine ⟨C3, ?_, hI3.mono (fun i j h => by omega)⟩
  simp [hC1, hC2, hC3]

theorem cost_cell_last (rows cols : Nat) (hrows : 1 ≤ rows) (hcols : 1 ≤ cols)
    (g : Nat → Nat → R) :
    cost_cell g (rows - 1) (cols - 1) = closed_form rows cols g := by
  unfold cost_cell closed_form
  by_cases h : rows = 1 ∨ cols = 1
  · have h' : rows - 1 = 0 ∨ cols - 1 = 0 := by omega
    simp [h, h']
  · have h' : ¬ (rows - 1 = 0 ∨ cols - 1 = 0) := by omega
    have e1 : rows - 1 - 1 = rows - 2 := by omega
    have e2 : cols - 1 - 1 = cols - 2 := by omega
    simp only [h, h', if_false, min_eq_min, e1, e2]

/-- What `min_diff` returns once every per-frame cost is available: the last cell of `costs`,
which is the closed form in the per-frame costs. -/
theorem min_diff_of_frames (sqrt : R → R) (M_PI : R) (fuel : Nat) (x y : Action R)
    (hrows : 1 ≤ x.size) (hcols : 1 ≤ y.size) (g : Nat → Nat → R)
    (hg : ∀ i, i < x.size → ∀ j, j < y.size →
      frame_distance sqrt M_PI fuel x y i j = some (g i j)) :
    min_diff sqrt M_PI fuel x y = some (closed_form x.size y.size g) := by
  obtain ⟨D, hD, hDH⟩ := fill_diffs x.size y.size (frame_distance sqrt M_PI fuel x y) g hg
  obtain ⟨C, hC, hCH⟩ := fill_costs x.size y.size hrows hcols g D hDH
  unfold min_diff
  simp only [hD, Option.some_bind]
  have hC' := hC
  cases h1 : forRange 0 y.size (fun c costs => (D.get 0 c).bind fun v => Mat.set costs 0 c v)
      (Mat.new x.size y.size) with
  | none => simp [h1] at hC'
  | some C1 =>
    simp only [h1, Option.some_bind] at hC' ⊢
    cases h2 : forRange 0 x.size (fun r costs => (D.get r 0).bind fun v => Mat.set costs r 0 v)
        C1 with
    | none => simp [h2] at hC'
    | some C2 =>
      simp only [h2, Option.some_bind] at hC' ⊢
      rw [hC']
      simp only [Option.some_bind]
      rw [hCH.get (by omega) (by omega) ⟨by omega, by omega⟩, cost_cell_last _ _ hrows hcols]

end Fill

/-! ## The angle wrap -/

section Wrap

variable {R : Type} [LinearOrderedField R]

theorem pos_dist_while_gt_spec (M_PI two_pi : R) :
    ∀ (n : Nat) (diff : R), diff ≤ M_PI + n * two_pi →
      ∃ k : Nat, k ≤ n
        ∧ (∀ fuel, k < fuel → pos_dist_while_gt M_PI two_pi fuel diff = some (diff - k * two_pi))
        ∧ diff - k * two_pi ≤ M_PI
        ∧ (k = 0 ∨ M_PI - two_pi < diff - k * two_pi) := by
  intro n
  induction n with
  | zero =>
    intro diff hd
    have hd' : diff ≤ M_PI := by simpa using hd
    refine ⟨0, le_refl _, ?_, by simpa using hd', Or.inl rfl⟩
    intro fuel hf
    obtain ⟨f, rfl⟩ : ∃ f, fuel = f + 1 := ⟨fuel - 1, by omega⟩
    simp [pos_dist_while_gt, not_lt.mpr hd']
  | succ n ih =>
    intro diff hd
    by_cases hle : diff ≤ M_PI
    · refine ⟨0, Nat.zero_le _, ?_, by simpa using hle, Or.inl rfl⟩
      intro fuel hf
      obtain ⟨f, rfl⟩ : ∃ f, fuel = f + 1 := ⟨fuel - 1, by omega⟩
      simp [pos_dist_while_gt, not_lt.mpr hle]
    · have hgt : M_PI < diff := not_le.mp hle
      have hd1 : diff - two_pi ≤ M_PI + n * two_pi := by
        have : ((n + 1 : Nat) : R) = (n : R) + 1 := by push_cast; ring
        rw [this] at hd
        linarith
      obtain ⟨k, hkn, hk, hle', hlow⟩ := ih (diff - two_pi) hd1
      have hcast : diff - ((k + 1 : Nat) : R) * two_pi = diff - two_pi - k * two_pi := by
        push_cast; ring
      refine ⟨k + 1, by omega, ?_, by rw [hcast]; exact hle', Or.inr ?_⟩
      · intro fuel hf
        obtain ⟨f, rfl⟩ : ∃ f, fuel = f + 1 := ⟨fuel - 1, by omega⟩
        rw [hcast]
        simp only [pos_dist_while_gt, gt_iff_lt, hgt, if_true]
        exact hk f (by omega)
      · rw [hcast]
        rcases hlow with h0 | h0
        · subst h0; simp only [Nat.cast_zero, zero_mul, sub_zero]; linarith
        · exact h0

theorem pos_dist_while_lt_spec (M_PI : R) (hpi : 0 < M_PI) (d : R) (hlo : -M_PI < d)
    (hhi : d ≤ M_PI) :
    ∃ v : R, (∀ fuel, 2 ≤ fuel → pos_dist_while_lt M_PI (2 * M_PI) fuel d = some v)
      ∧ M_PI ≤ v ∧ v < 3 * M_PI ∧ (v = d ∨ v = d + 2 * M_PI) := by
  by_cases hd : d < M_PI
  · refine ⟨d + 2 * M_PI, ?_, by linarith, by linarith, Or.inr rfl⟩
    intro fuel hf
    obtain ⟨f, rfl⟩ : ∃ f, fuel = f + 2 := ⟨fuel - 2, by omega⟩
    have h2 : ¬ (d + 2 * M_PI < M_PI) := by linarith
    simp [pos_dist_while_lt, hd, h2]
  · have hd' : d = M_PI := le_antisymm hhi (not_lt.mp hd)
    refine ⟨d, ?_, by linarith, by linarith, Or.inl rfl⟩
    intro fuel hf
    obtain ⟨f, rfl⟩ : ∃ f, fuel = f + 1 := ⟨fuel - 1, by omega⟩
    simp [pos_dist_while_lt, hd]

/-- Both loops of `pos_dist` exit, and the value returned lies in `[M_PI, 3 M_PI)` and differs
from `|y - x|` by a whole number of turns. -/
theorem pos_dist_spec [Archimedean R] (M_PI : R) (hpi : 0 < M_PI) (x y : R) :
    ∃ (N : Nat) (v : R), (∀ fuel, N ≤ fuel → pos_dist M_PI fuel x y = some v)
      ∧ M_PI ≤ v ∧ v < 3 * M_PI ∧ ∃ k : Int, v = |y - x| + k * (2 * M_PI) := by
  have h2 : (0 : R) < 2 * M_PI := by linarith
  obtain ⟨n, hn⟩ := exists_nat_ge ((|y - x| - M_PI) / (2 * M_PI))
  have hn' : |y - x| ≤ M_PI + n * (2 * M_PI) := by
    have := (div_le_iff₀ h2).mp hn
    linarith
  obtain ⟨k, _, hk, hle, hlow⟩ := pos_dist_while_gt_spec M_PI (2 * M_PI) n |y - x| hn'
  have hlo : -M_PI < |y - x| - k * (2 * M_PI) := by
    rcases hlow with h0 | h0
    · subst h0
      have := abs_nonneg (y - x)
      simp only [Nat.cast_zero, zero_mul, sub_zero]; linarith
    · linarith
  obtain ⟨v, hv, hv1, hv2, hv3⟩ := pos_dist_while_lt_spec M_PI hpi _ hlo hle
  refine ⟨k + 2, v, ?_, hv1, hv2, ?_⟩
  · intro fuel hf
    simp [pos_dist, hk fuel (by omega), hv fuel (by omega)]
  · rcases hv3 with h | h
    · exact ⟨-(k : Int), by rw [h]; push_cast; ring⟩
    · exact ⟨1 - (k : Int), by rw [h]; push_cast; ring⟩

theorem pos_dist_self (M_PI : R) (hpi : 0 < M_PI) (a : R) (fuel : Nat) (hf : 2 ≤ fuel) :
    pos_dist M_PI fuel a a = some (2 * M_PI) := by
  obtain ⟨f, rfl⟩ : ∃ f, fuel = f + 2 := ⟨fuel - 2, by omega⟩
  have h1 : ¬ (M_PI < 0) := by linarith
  have h2 : ¬ (2 * M_PI < M_PI) := by linarith
  simp [pos_dist, pos_dist_while_gt, pos_dist_while_lt, hpi, h1, h2]

end Wrap

/-! ## Per-frame costs -/

section Frames

variable {R : Type} [LinearOrderedField R]

theorem get?_of_lt {α : Type} (l : List α) (i : Nat) (h : i < l.length) :
    ∃ a, l[i]? = some a ∧ a ∈ l :=
  ⟨l[i], List.getElem?_eq_getElem h, List.getElem_mem h⟩

/-- The loop of `joint_distance` unrolled: it visits exactly the indices 6 and 7. -/
theorem joint_distance_unroll (M_PI : R) (fuel : Nat) (x y : JointState R) (x6 x7 y6 y7 : R)
    (hx6 : x.position[6]? = some x6) (hx7 : x.position[7]? = some x7)
    (hy6 : y.position[6]? = some y6) (hy7 : y.position[7]? = some y7) :
    joint_distance M_PI fuel x y
      = (pos_dist M_PI fuel x6 y6).bind fun a =>
        (pos_dist M_PI fuel x7 y7).bind fun b => some (10 * (a + b)) := by
  simp only [joint_distance, forRange, NUM_JOINTS, forLoop, hx6, hx7, hy6, hy7, Option.some_bind,
    JOINT_WEIGHT]
  cases pos_dist M_PI fuel x6 y6 with
  | none => rfl
  | some a =>
    cases pos_dist M_PI fuel x7 y7 with
    | none => rfl
    | some b => simp only [Option.some_bind]; congr 1; ring

/-- Finitely many results that are each reached from some iteration budget on are all reached
from one common budget on. -/
theorem exists_fuel_fun {α : Type} (dflt : α) (P : Nat → Nat → α → Prop) (n : Nat)
    (h : ∀ i, i < n → ∃ N v, ∀ fuel, N ≤ fuel → P fuel i v) :
    ∃ (N : Nat) (d : Nat → α), ∀ fuel, N ≤ fuel → ∀ i, i < n → P fuel i (d i) := by
  induction n with
  | zero => exact ⟨0, fun _ => dflt, fun _ _ i hi => absurd hi (Nat.not_lt_zero i)⟩
  | succ n ih =>
    obtain ⟨N1, d1, h1⟩ := ih (fun i hi => h i (by omega))
    obtain ⟨N2, v, h2⟩ := h n (by omega)
    refine ⟨Nat.max N1 N2, fun i => if i = n then v else d1 i, fun fuel hf i hi => ?_⟩
    have hf1 : N1 ≤ fuel := le_trans (Nat.le_max_left _ _) hf
    have hf2 : N2 ≤ fuel := le_trans (Nat.le_max_right _ _) hf
    by_cases hin : i = n
    · subst hin; simpa using h2 fuel hf2
    · simpa [hin] using h1 fuel hf1 i (by omega)

theorem joint_distance_total [Archimedean R] (M_PI : R) (hpi : 0 < M_PI) (x y : JointState R)
    (hx : 8 ≤ x.position.length) (hy : 8 ≤ y.position.length) :
    ∃ N v, (∀ fuel, N ≤ fuel → joint_distance M_PI fuel x y = some v) ∧ 0 ≤ v := by
  obtain ⟨x6, hx6, _⟩ := get?_of_lt x.position 6 (by omega)
  obtain ⟨x7, hx7, _⟩ := get?_of_lt x.position 7 (by omega)
  obtain ⟨y6, hy6, _⟩ := get?_of_lt y.position 6 (by omega)
  obtain ⟨y7, hy7, _⟩ := get?_of_lt y.position 7 (by omega)
  obtain ⟨N6, v6, h6, h6lo, _, _⟩ := pos_dist_spec M_PI hpi x6 y6
  obtain ⟨N7, v7, h7, h7lo, _, _⟩ := pos_dist_spec M_PI hpi x7 y7
  refine ⟨Nat.max N6 N7, 10 * (v6 + v7), fun fuel hf => ?_, by linarith⟩
  rw [joint_distance_unroll M_PI fuel x y x6 x7 y6 y7 hx6 hx7 hy6 hy7,
    h6 fuel (le_trans (Nat.le_max_left _ _) hf), h7 fuel (le_trans (Nat.le_max_right _ _) hf)]
  rfl

theorem distance_total [Archimedean R] (sqrt : R → R) (hsqrt : ∀ a, 0 ≤ sqrt a) (M_PI : R)
    (hpi : 0 < M_PI) (p1 p2 : Pose R) (js1 js2 : JointState R)
    (h1 : 8 ≤ js1.position.length) (h2 : 8 ≤ js2.position.length) :
    ∃ N v, (∀ fuel, N ≤ fuel → distance sqrt M_PI fuel p1 p2 js1 js2 = some v) ∧ 0 ≤ v := by
  obtain ⟨N, jd, hjd, hjd0⟩ := joint_distance_total M_PI hpi js1 js2 h1 h2
  refine ⟨N, position_distance sqrt p1.position p2.position
    + quaternion_distance sqrt p1.orientation p2.orientation + jd,
    fun fuel hf => by simp only [distance, hjd fuel hf, Option.some_bind], ?_⟩
  unfold position_distance quaternion_distance
  exact add_nonneg (add_nonneg (hsqrt _) (hsqrt _)) hjd0

/-- With enough fuel every cell of the `diffs` matrix of two well-formed trajectories gets its
value, which does not depend on the fuel and is non-negative. -/
theorem frame_distance_total [Archimedean R] (sqrt : R → R) (hsqrt : ∀ a, 0 ≤ sqrt a) (M_PI : R)
    (hpi : 0 < M_PI) (x y : Action R) (hx : x.WellFormed) (hy : y.WellFormed) :
    ∃ (N : Nat) (d : Nat → Nat → R), ∀ fuel, N ≤ fuel → ∀ i, i < x.size → ∀ j, j < y.size →
      frame_distance sqrt M_PI fuel x y i j = some (d i j) ∧ 0 ≤ d i j := by
  apply exists_fuel_fun (fun _ => (0 : R))
    (fun fuel i (row : Nat → R) => ∀ j, j < y.size →
      frame_distance sqrt M_PI fuel x y i j = some (row j) ∧ 0 ≤ row j)
  intro i hi
  apply exists_fuel_fun (0 : R)
    (fun fuel j (v : R) => frame_distance sqrt M_PI fuel x y i j = some v ∧ 0 ≤ v)
  intro j hj
  obtain ⟨xp, hxp, _⟩ := get?_of_lt x.poses i hi
  obtain ⟨yp, hyp, _⟩ := get?_of_lt y.poses j hj
  obtain ⟨xj, hxj, hxjm⟩ := get?_of_lt x.joints i (by rw [hx.1]; exact hi)
  obtain ⟨yj, hyj, hyjm⟩ := get?_of_lt y.joints j (by rw [hy.1]; exact hj)
  obtain ⟨N, v, hv, hv0⟩ := distance_total sqrt hsqrt M_PI hpi xp yp xj yj (hx.2 xj hxjm)
    (hy.2 yj hyjm)
  exact ⟨N, v, fun fuel hf =>
    ⟨by simp only [frame_distance, hxp, hyp, hxj, hyj, Option.some_bind, hv fuel hf], hv0⟩⟩

/-- The idealised `min_diff` returns, together with its value: with enough fuel the per-frame
costs are all available, and `min_diff` returns their closed form. -/
theorem min_diff_total [Archimedean R] (sqrt : R → R) (hsqrt : ∀ a, 0 ≤ sqrt a) (M_PI : R)
    (hpi : 0 < M_PI) (x y : Action R) (hx : x.WellFormed) (hy : y.WellFormed)
    (hrows : 1 ≤ x.size) (hcols : 1 ≤ y.size) :
    ∃ (N : Nat) (d : Nat → Nat → R),
      (∀ i, i < x.size → ∀ j, j < y.size → 0 ≤ d i j)
      ∧ ∀ fuel, N ≤ fuel →
        (∀ i, i < x.size → ∀ j, j < y.size →
          frame_distance sqrt M_PI fuel x y i j = some (d i j))
        ∧ min_diff sqrt M_PI fuel x y = some (closed_form x.size y.size d) := by
  obtain ⟨N, d, hN⟩ := frame_distance_total sqrt hsqrt M_PI hpi x y hx hy
  refine ⟨N, d, fun i hi j hj => (hN N (le_refl N) i hi j hj).2, fun fuel hf => ?_⟩
  have hcells : ∀ i, i < x.size → ∀ j, j < y.size →
      frame_distance sqrt M_PI fuel x y i j = some (d i j) :=
    fun i hi j hj => (hN fuel hf i hi j hj).1
  exact ⟨hcells, min_diff_of_frames sqrt M_PI fuel x y hrows hcols d hcells⟩

/-- Two frames with the same joint state of at least eight angles: each finger joint contributes a
full turn, so the joint term is `40 M_PI`. -/
theorem distance_same_joints (sqrt : R → R) (M_PI : R) (hpi : 0 < M_PI) (fuel : Nat)
    (hf : 2 ≤ fuel) (p1 p2 : Pose R) (js : JointState R) (hjs : 8 ≤ js.position.length) :
    distance sqrt M_PI fuel p1 p2 js js
      = some (position_distance sqrt p1.position p2.position
          + quaternion_distance sqrt p1.orientation p2.orientation + 40 * M_PI) := by
  obtain ⟨a6, h6, _⟩ := get?_of_lt js.position 6 (by omega)
  obtain ⟨a7, h7, _⟩ := get?_of_lt js.position 7 (by omega)
  rw [distance, joint_distance_unroll M_PI fuel js js a6 a7 a6 a7 h6 h7 h6 h7,
    pos_dist_self M_PI hpi a6 fuel hf, pos_dist_self M_PI hpi a7 fuel hf]
  simp only [Option.some_bind]
  congr 1; ring

end Frames

/-! ## The closed form -/

section ClosedForm

variable {R : Type} [LinearOrderedField R]

theorem closed_form_nonneg (rows cols : Nat) (hrows : 1 ≤ rows) (hcols : 1 ≤ cols)
    (g : Nat → Nat → R) (hg : ∀ i, i < rows → ∀ j, j < cols → 0 ≤ g i j) :
    0 ≤ closed_form rows cols g := by
  unfold closed_form
  split_ifs with h
  · exact hg _ (by omega) _ (by omega)
  · exact add_nonneg (hg _ (by omega) _ (by omega))
      (le_min (hg _ (by omega) _ (by omega))
        (le_min (hg _ (by omega) _ (by omega)) (hg _ (by omega) _ (by omega))))

theorem closed_form_mono (rows cols : Nat) (hrows : 1 ≤ rows) (hcols : 1 ≤ cols)
    (g g' : Nat → Nat → R) (hg : ∀ i, i < rows → ∀ j, j < cols → g i j ≤ g' i j) :
    closed_form rows cols g ≤ closed_form rows cols g' := by
  unfold closed_form
  split_ifs with h
  · exact hg _ (by omega) _ (by omega)
  · exact add_le_add (hg _ (by omega) _ (by omega))
      (min_le_min (hg _ (by omega) _ (by omega))
        (min_le_min (hg _ (by omega) _ (by omega)) (hg _ (by omega) _ (by omega))))

theorem closed_form_strict_mono (rows cols : Nat) (hrows : 1 ≤ rows) (hcols : 1 ≤ cols)
    (g g' : Nat → Nat → R) (hg : ∀ i, i < rows → ∀ j, j < cols → g i j ≤ g' i j)
    (hlast : g (rows - 1) (cols - 1) < g' (rows - 1) (cols - 1)) :
    closed_form rows cols g < closed_form rows cols g' := by
  unfold closed_form
  split_ifs with h
  · exact hlast
  · exact add_lt_add_of_lt_of_le hlast
      (min_le_min (hg _ (by omega) _ (by omega))
        (min_le_min (hg _ (by omega) _ (by omega)) (hg _ (by omega) _ (by omega))))

end ClosedForm

/-! ## Displacing one frame -/

section Displace

variable {R : Type} [LinearOrderedField R]

theorem displace_size (a : Action R) (i : Nat) (ox oy oz : R) :
    (a.displace i ox oy oz).size = a.size := by
  simp [Action.displace, Action.size]

/-- Displacing frame `i` changes the cost of a cell in row `i` by the change of its position term
and leaves every other cell as it is. -/
theorem frame_distance_displace (sqrt : R → R) (M_PI : R) (fuel : Nat) (x y : Action R)
    (i : Nat) (ox oy oz : R) (r j : Nat) (v : R)
    (hv : frame_distance sqrt M_PI fuel x y r j = some v) :
    ∃ xp yp, x.poses[r]? = some xp ∧ y.poses[j]? = some yp
      ∧ frame_distance sqrt M_PI fuel (x.displace i ox oy oz) y r j
        = some (if i = r then
            v - position_distance sqrt xp.position yp.position
              + position_distance sqrt (xp.position.shift ox oy oz) yp.position
          else v) := by
  unfold frame_distance at hv ⊢
  cases hxp : x.poses[r]? with
  | none => simp [hxp] at hv
  | some xp =>
    cases hyp : y.poses[j]? with
    | none => simp [hxp, hyp] at hv
    | some yp =>
      cases hxj : x.joints[r]? with
      | none => simp [hxp, hyp, hxj] at hv
      | some xj =>
        cases hyj : y.joints[j]? with
        | none => simp [hxp, hyp, hxj, hyj] at hv
        | some yj =>
          cases hjd : joint_distance M_PI fuel xj yj with
          | none => simp [hxp, hyp, hxj, hyj, distance, hjd] at hv
          | some jd =>
            simp only [hxp, hyp, hxj, hyj, distance, hjd, Option.some_bind,
              Option.some.injEq] at hv
            refine ⟨xp, yp, rfl, rfl, ?_⟩
            simp only [Action.displace, List.getElem?_modify, hxp, hyp, hxj, hyj, distance, hjd,
              Option.some_bind, Option.map_some', Option.some.injEq, Functor.map]
            by_cases hir : i = r
            · simp only [hir, if_true, ← hv]; ring
            · simp only [hir, if_false, ← hv]

end Displace

/-! ## Evaluation at concrete inputs -/

section Eval

theorem sqrt_sq_sum (a b : ℝ) (hb : 0 ≤ b) (h : a = b ^ 2) : Real.sqrt a = b := by
  rw [h, Real.sqrt_sq hb]

theorem position_distance_axis (a b : ℝ) (q1 q2 : Quaternion ℝ) :
    position_distance Real.sqrt (poseAt a q1).position (poseAt b q2).position = |b - a| := by
  simp only [position_distance, poseAt, sub_self]
  rw [← Real.sqrt_sq_eq_abs]
  congr 1; ring

theorem poseAt_orientation (a : ℝ) (q : Quaternion ℝ) : (poseAt a q).orientation = q := rfl

theorem quaternion_distance_identity :
    quaternion_distance Real.sqrt (identityQ : Quaternion ℝ) identityQ = 0 := by
  simp [quaternion_distance, identityQ]

theorem frame_distance_twoThree (i j : Nat) (hi : i < 2) (hj : j < 3) :
    frame_distance Real.sqrt Real.pi 2 (twoFrames : Action ℝ) threeFrames i j
      = some ((if i = 0 then 5 else 0) + 40 * Real.pi) := by
  interval_cases i <;> interval_cases j <;>
    simp [frame_distance, twoFrames, threeFrames,
      distance_same_joints Real.sqrt Real.pi Real.pi_pos 2 (le_refl 2) _ _ zeroJoints
        (by simp [zeroJoints]),
      position_distance_axis, poseAt_orientation, quaternion_distance_identity]

theorem frame_cost_twoThree (i j : Nat) (hi : i < 2) (hj : j < 3) :
    frame_cost Real.sqrt Real.pi 2 (twoFrames : Action ℝ) threeFrames i j
      = (if i = 0 then 5 else 0) + 40 * Real.pi := by
  simp only [frame_cost, frame_distance_twoThree i j hi hj, Option.getD_some]

theorem min_diff_oneFrame (a b : ℝ) (q1 q2 : Quaternion ℝ) (fuel : Nat) (hf : 2 ≤ fuel) :
    min_diff Real.sqrt Real.pi fuel (oneFrame a q1) (oneFrame b q2)
      = some (|b - a| + quaternion_distance Real.sqrt q1 q2 + 40 * Real.pi) := by
  rw [min_diff_of_frames Real.sqrt Real.pi fuel (oneFrame a q1) (oneFrame b q2) (le_refl 1)
    (le_refl 1) (fun _ _ => |b - a| + quaternion_distance Real.sqrt q1 q2 + 40 * Real.pi)]
  · simp [closed_form, oneFrame, Action.size]
  · intro i hi j hj
    have hi0 : i = 0 := by simp [oneFrame, Action.size] at hi; exact hi
    have hj0 : j = 0 := by simp [oneFrame, Action.size] at hj; exact hj
    subst hi0; subst hj0
    simp [frame_distance, oneFrame,
      distance_same_joints Real.sqrt Real.pi Real.pi_pos fuel hf _ _ zeroJoints
        (by simp [zeroJoints]),
      position_distance_axis, poseAt_orientation]

theorem oneFrame_displace (a ox : ℝ) (q : Quaternion ℝ) :
    (oneFrame a q).displace 0 ox 0 0 = oneFrame (a + ox) q := by
  simp [oneFrame, Action.displace, poseAt, Point.shift]

theorem quaternion_distance_quatA :
    quaternion_distance Real.sqrt (quatA : Quaternion ℝ) quatA = 48 / 25 := by
  simp only [quaternion_distance, quatA]
  exact sqrt_sq_sum _ _ (by norm_num) (by norm_num)

theorem quaternion_distance_quatC_quatD :
    quaternion_distance Real.sqrt (quatC : Quaternion ℝ) quatD = 2 := by
  simp only [quaternion_distance, quatC, quatD]
  exact sqrt_sq_sum _ _ (by norm_num) (by norm_num)

theorem quaternion_distance_quatD_quatC :
    quaternion_distance Real.sqrt (quatD : Quaternion ℝ) quatC = 14 / 25 := by
  simp only [quaternion_distance, quatC, quatD]
  exact sqrt_sq_sum _ _ (by norm_num) (by norm_num)

theorem threeFrames_displace (ox : ℝ) :
    (threeFrames : Action ℝ).displace 0 ox 0 0 = threeFramesFrom (0 + ox) := by
  simp [threeFrames, threeFramesFrom, Action.displace, poseAt, Point.shift]

/-- Against a trajectory resting at the origin, the position of the first of three frames does not
enter the score. -/
theorem min_diff_threeFramesFrom (a : ℝ) :
    min_diff Real.sqrt Real.pi 2 (threeFramesFrom a) (threeFrames : Action ℝ)
      = some (80 * Real.pi) := by
  rw [min_diff_of_frames Real.sqrt Real.pi 2 (threeFramesFrom a) threeFrames
    (show 1 ≤ 3 by omega) (show 1 ≤ 3 by omega) (fun i _ => (if i = 0 then |0 - a| else 0) + 40 * Real.pi)]
  · have e1 : (threeFramesFrom a : Action ℝ).size = 3 := rfl
    have e2 : (threeFrames : Action ℝ).size = 3 := rfl
    simp only [e1, e2, closed_form]
    norm_num
    ring
  · intro i hi j hj
    have e1 : (threeFramesFrom a : Action ℝ).size = 3 := rfl
    have e2 : (threeFrames : Action ℝ).size = 3 := rfl
    rw [e1] at hi
    rw [e2] at hj
    interval_cases i <;> interval_cases j <;>
      simp [frame_distance, threeFrames, threeFramesFrom,
        distance_same_joints Real.sqrt Real.pi Real.pi_pos 2 (le_refl 2) _ _ zeroJoints
          (by simp [zeroJoints]),
        position_distance_axis, poseAt_orientation, quaternion_distance_identity]

theorem oneFrame_wf (a : ℝ) (q : Quaternion ℝ) : (oneFrame a q).WellFormed := by
  simp [Action.WellFormed, oneFrame, zeroJoints]

theorem twoFrames_wf : (twoFrames : Action ℝ).WellFormed := by
  simp [Action.WellFormed, twoFrames, zeroJoints]

theorem threeFrames_wf : (threeFrames : Action ℝ).WellFormed := by
  simp [Action.WellFormed, threeFrames, zeroJoints]

theorem oneFrame_not_nearer (j : Nat) (xp yp : Pose ℝ)
    (hxp : (oneFrame 0 identityQ : Action ℝ).poses[0]? = some xp)
    (hyp : (oneFrame 0 identityQ : Action ℝ).poses[j]? = some yp) :
    position_distance Real.sqrt xp.position yp.position
      ≤ position_distance Real.sqrt (xp.position.shift 1 0 0) yp.position := by
  have h1 : xp = poseAt 0 identityQ := by
    simp [oneFrame] at hxp; exact hxp.symm
  have h2 : yp = poseAt 0 identityQ := by
    have := List.getElem?_mem hyp
    simpa [oneFrame] using this
  subst h1; subst h2
  rw [position_distance_axis]
  simp only [sub_self, abs_zero]
  exact Real.sqrt_nonneg _

theorem oneFrame_farther (xp yp : Pose ℝ)
    (hxp : (oneFrame 0 identityQ : Action ℝ).poses[0]? = some xp)
    (hyp : (oneFrame 0 identityQ : Action ℝ).poses[0]? = some yp) :
    position_distance Real.sqrt xp.position yp.position
      < position_distance Real.sqrt (xp.position.shift 1 0 0) yp.position := by
  have h1 : xp = poseAt 0 identityQ := by
    simp [oneFrame] at hxp; exact hxp.symm
  have h2 : yp = poseAt 0 identityQ := by
    simp [oneFrame] at hyp; exact hyp.symm
  subst h1; subst h2
  rw [position_distance_axis]
  simp only [sub_self, abs_zero, position_distance, poseAt, Point.shift]
  apply Real.sqrt_pos.mpr
  norm_num

end Eval

/-! ## The claims -/

section Claims

/-- C1 (the code departs from the stated recurrence).  On a two-frame trajectory `x` (positions
`(5,0,0)` and the origin) against a three-frame trajectory `y` resting at the origin,
`DTW::min_diff` returns `80 π`, whereas the cumulative-cost recurrence of the specification, run on
the very same per-frame costs, gives `cost[1][2] = 80 π + 5`: the interior loop takes the minimum
over cells of `diffs`, not of `costs`. -/
theorem C1_min_diff_reads_diffs_not_costs :
    min_diff Real.sqrt Real.pi 2 (twoFrames : Action ℝ) threeFrames = some (80 * Real.pi)
      ∧ spec_cost (frame_cost Real.sqrt Real.pi 2 (twoFrames : Action ℝ) threeFrames) 1 2
          = 80 * Real.pi + 5
      ∧ (80 * Real.pi + 5 : ℝ) ≠ 80 * Real.pi := by
  have hpi := Real.pi_gt_three
  refine ⟨?_, ?_, by linarith⟩
  · rw [min_diff_of_frames Real.sqrt Real.pi 2 twoFrames threeFrames (by decide) (by decide)
      (fun i _ => (if i = 0 then 5 else 0) + 40 * Real.pi)
      (fun i hi j hj => frame_distance_twoThree i j hi hj)]
    have e1 : (twoFrames : Action ℝ).size = 2 := rfl
    have e2 : (threeFrames : Action ℝ).size = 3 := rfl
    simp only [e1, e2, closed_form]
    norm_num
    ring
  · simp only [spec_cost]
    rw [frame_cost_twoThree 1 2 (by omega) (by omega), frame_cost_twoThree 1 1 (by omega) (by omega),
      frame_cost_twoThree 0 0 (by omega) (by omega), frame_cost_twoThree 0 1 (by omega) (by omega),
      frame_cost_twoThree 0 2 (by omega) (by omega), frame_cost_twoThree 1 0 (by omega) (by omega)]
    norm_num
    rw [min_eq_left (by linarith : (5 + 40 * Real.pi : ℝ) ≤ 40 * Real.pi + 40 * Real.pi)]
    ring

/-- C2.  For non-empty well-formed trajectories (real components, one joint state per pose, at
least 8 joint angles per frame) `DTW::min_diff` returns a value, and that value is `≥ 0`. -/
theorem C2_min_diff_nonneg (x y : Action ℝ) (hx : x.WellFormed) (hy : y.WellFormed)
    (hrows : 1 ≤ x.size) (hcols : 1 ≤ y.size) :
    ∃ (N : Nat) (v : ℝ),
      (∀ fuel, N ≤ fuel → min_diff Real.sqrt Real.pi fuel x y = some v) ∧ 0 ≤ v := by
  obtain ⟨N, d, hd0, hN⟩ := min_diff_total Real.sqrt Real.sqrt_nonneg Real.pi Real.pi_pos x y
    hx hy hrows hcols
  exact ⟨N, _, fun fuel hf => (hN fuel hf).2, closed_form_nonneg _ _ hrows hcols d hd0⟩

/-- C10.  For all real angles `x`, `y`, `DTW::pos_dist x y` returns the unique value of
`[π, 3π)` that differs from `|y - x|` by an integer multiple of `2π`; `pos_dist x x = 2π`; the
result is never below `π`, so never in the interior of `[-π, π]`. -/
theorem C10_pos_dist_range (x y : ℝ) :
    ∃ (N : Nat) (v : ℝ),
      (∀ fuel, N ≤ fuel → pos_dist Real.pi fuel x y = some v)
        ∧ Real.pi ≤ v ∧ v < 3 * Real.pi
        ∧ (∃ k : Int, v = |y - x| + k * (2 * Real.pi))
        ∧ (∀ w : ℝ, Real.pi ≤ w → w < 3 * Real.pi →
            (∃ k : Int, w = |y - x| + k * (2 * Real.pi)) → w = v)
        ∧ ¬ (-Real.pi < v ∧ v < Real.pi)
        ∧ (∀ fuel, 2 ≤ fuel → pos_dist Real.pi fuel x x = some (2 * Real.pi)) := by
  have hpi := Real.pi_pos
  obtain ⟨N, v, hv, hlo, hhi, k, hk⟩ := pos_dist_spec Real.pi hpi x y
  refine ⟨N, v, hv, hlo, hhi, ⟨k, hk⟩, ?_, fun h => by linarith [h.2],
    fun fuel hf => pos_dist_self Real.pi hpi x fuel hf⟩
  rintro w hwlo hwhi ⟨k', hk'⟩
  have hdiff : w - v = ((k' - k : Int) : ℝ) * (2 * Real.pi) := by
    rw [hk, hk']; push_cast; ring
  have h1 : ((k' - k : Int) : ℝ) * (2 * Real.pi) < 1 * (2 * Real.pi) := by
    rw [← hdiff]; linarith
  have h2 : (-1 : ℝ) * (2 * Real.pi) < ((k' - k : Int) : ℝ) * (2 * Real.pi) := by
    rw [← hdiff]; linarith
  have h2pi : (0 : ℝ) < 2 * Real.pi := by linarith
  have h3 : ((k' - k : Int) : ℝ) < 1 := lt_of_mul_lt_mul_right h1 h2pi.le
  have h4 : (-1 : ℝ) < ((k' - k : Int) : ℝ) := lt_of_mul_lt_mul_right h2 h2pi.le
  have h5 : k' - k < 1 := by exact_mod_cast h3
  have h6 : -1 < k' - k := by exact_mod_cast h4
  have h7 : k' - k = 0 := by omega
  rw [h7] at hdiff
  simp only [Int.cast_zero, zero_mul] at hdiff
  linarith

/-- C5.  For joint-angle vectors `x`, `y` with at least 8 entries,
`joint_distance x y = 10 * (pos_dist x[6] y[6] + pos_dist x[7] y[7])`: the loop visits indices 6
and 7 only (first conjunct, for every iteration budget; third conjunct, as values).  Consequently
`DTW::distance` does not depend on entries 0 to 5: two frame pairs with the same poses and the same
joint entries 6 and 7 have the same `distance` (second conjunct). -/
theorem C5_joint_distance_fingers_only (x y : JointState ℝ) (hx : 8 ≤ x.position.length)
    (hy : 8 ≤ y.position.length) :
    (∀ fuel, joint_distance Real.pi fuel x y
        = (pos_dist Real.pi fuel x.position[6] y.position[6]).bind fun a =>
          (pos_dist Real.pi fuel x.position[7] y.position[7]).bind fun b => some (10 * (a + b)))
      ∧ (∀ (x' y' : JointState ℝ) (p1 p2 : Pose ℝ) (fuel : Nat),
          8 ≤ x'.position.length → 8 ≤ y'.position.length →
          x'.position[6]? = x.position[6]? → x'.position[7]? = x.position[7]? →
          y'.position[6]? = y.position[6]? → y'.position[7]? = y.position[7]? →
          distance Real.sqrt Real.pi fuel p1 p2 x' y' = distance Real.sqrt Real.pi fuel p1 p2 x y)
      ∧ ∃ (N : Nat) (a b : ℝ), ∀ fuel, N ≤ fuel →
          pos_dist Real.pi fuel x.position[6] y.position[6] = some a
            ∧ pos_dist Real.pi fuel x.position[7] y.position[7] = some b
            ∧ joint_distance Real.pi fuel x y = some (10 * (a + b)) := by
  have hx6 : x.position[6]? = some x.position[6] := List.getElem?_eq_getElem (by omega)
  have hx7 : x.position[7]? = some x.position[7] := List.getElem?_eq_getElem (by omega)
  have hy6 : y.position[6]? = some y.position[6] := List.getElem?_eq_getElem (by omega)
  have hy7 : y.position[7]? = some y.position[7] := List.getElem?_eq_getElem (by omega)
  have hunroll := fun fuel => joint_distance_unroll Real.pi fuel x y _ _ _ _ hx6 hx7 hy6 hy7
  refine ⟨hunroll, ?_, ?_⟩
  · intro x' y' p1 p2 fuel _ _ h6 h7 g6 g7
    have := joint_distance_unroll Real.pi fuel x' y' _ _ _ _ (h6.trans hx6) (h7.trans hx7)
      (g6.trans hy6) (g7.trans hy7)
    simp only [distance, this, hunroll fuel]
  · obtain ⟨N6, v6, h6, _⟩ := pos_dist_spec Real.pi Real.pi_pos x.position[6] y.position[6]
    obtain ⟨N7, v7, h7, _⟩ := pos_dist_spec Real.pi Real.pi_pos x.position[7] y.position[7]
    refine ⟨Nat.max N6 N7, v6, v7, fun fuel hf => ⟨?_, ?_, ?_⟩⟩
    · exact h6 fuel (le_trans (Nat.le_max_left _ _) hf)
    · exact h7 fuel (le_trans (Nat.le_max_right _ _) hf)
    · rw [hunroll fuel, h6 fuel (le_trans (Nat.le_max_left _ _) hf),
        h7 fuel (le_trans (Nat.le_max_right _ _) hf)]
      rfl

/-- C6 (the code departs from the claim).  `quatA = (x, y, z, w) = (0, 4/5, 0, 3/5)` is a unit
quaternion, and `DTW::quaternion_distance quatA quatA` is `48/25`, not `0`: rows 1 and 2 of the
matrix `inv` do not annihilate the quaternion they are built from. -/
theorem C6_quaternion_distance_self_nonzero :
    (quatA : Quaternion ℝ).w ^ 2 + (quatA : Quaternion ℝ).x ^ 2 + (quatA : Quaternion ℝ).y ^ 2
        + (quatA : Quaternion ℝ).z ^ 2 = 1
      ∧ quaternion_distance Real.sqrt (quatA : Quaternion ℝ) quatA = 48 / 25
      ∧ quaternion_distance Real.sqrt (quatA : Quaternion ℝ) quatA ≠ 0 := by
  refine ⟨by norm_num [quatA], quaternion_distance_quatA, ?_⟩
  rw [quaternion_distance_quatA]; norm_num

/-- C3 (the code departs from the claim).  A trajectory that rests at the origin with the
identity orientation and all joints at zero has uniform frames, yet `DTW::min_diff` of it against
itself is `40 π` with one frame and `80 π` with three: each finger joint contributes a full turn
`2 π` to every per-frame cost. -/
theorem C3_min_diff_self_nonzero :
    min_diff Real.sqrt Real.pi 2 (oneFrame 0 identityQ : Action ℝ) (oneFrame 0 identityQ)
        = some (40 * Real.pi)
      ∧ min_diff Real.sqrt Real.pi 2 (threeFrames : Action ℝ) threeFrames = some (80 * Real.pi)
      ∧ (40 * Real.pi : ℝ) ≠ 0 ∧ (80 * Real.pi : ℝ) ≠ 0 := by
  have hpi := Real.pi_pos
  refine ⟨?_, ?_, by linarith, by linarith⟩
  · rw [min_diff_oneFrame 0 0 identityQ identityQ 2 (le_refl 2), quaternion_distance_identity]
    simp
  · exact min_diff_threeFramesFrom 0

/-- C4 (the code departs from the claim).  `quatC = (3/5, 4/5, 0, 0)` and `quatD = (0, 0, 4/5, 3/5)`
(as `(x, y, z, w)`) are unit quaternions.  For the one-frame trajectories at the origin with these
orientations and all joints zero, `min_diff x y = 2 + 40 π` but `min_diff y x = 14/25 + 40 π`: the
per-frame cost is not symmetric, because `quaternion_distance` is not. -/
theorem C4_min_diff_not_symmetric :
    (quatC : Quaternion ℝ).w ^ 2 + (quatC : Quaternion ℝ).x ^ 2 + (quatC : Quaternion ℝ).y ^ 2
        + (quatC : Quaternion ℝ).z ^ 2 = 1
      ∧ (quatD : Quaternion ℝ).w ^ 2 + (quatD : Quaternion ℝ).x ^ 2 + (quatD : Quaternion ℝ).y ^ 2
        + (quatD : Quaternion ℝ).z ^ 2 = 1
      ∧ quaternion_distance Real.sqrt (quatC : Quaternion ℝ) quatD = 2
      ∧ quaternion_distance Real.sqrt (quatD : Quaternion ℝ) quatC = 14 / 25
      ∧ min_diff Real.sqrt Real.pi 2 (oneFrame 0 quatC : Action ℝ) (oneFrame 0 quatD)
          = some (2 + 40 * Real.pi)
      ∧ min_diff Real.sqrt Real.pi 2 (oneFrame 0 quatD : Action ℝ) (oneFrame 0 quatC)
          = some (14 / 25 + 40 * Real.pi)
      ∧ (2 + 40 * Real.pi : ℝ) ≠ 14 / 25 + 40 * Real.pi := by
  refine ⟨by norm_num [quatC], by norm_num [quatD], quaternion_distance_quatC_quatD,
    quaternion_distance_quatD_quatC, ?_, ?_, by norm_num⟩
  · rw [min_diff_oneFrame 0 0 quatC quatD 2 (le_refl 2), quaternion_distance_quatC_quatD]
    simp
  · rw [min_diff_oneFrame 0 0 quatD quatC 2 (le_refl 2), quaternion_distance_quatD_quatC]
    simp

/-- C8, refuted as stated.  First, `x` is one frame at `(1, 0, 0)` and `y` one frame at the
origin, both with identity orientation and zero joints: displacing frame 0 of `x` by the non-zero
offset `(-1, 0, 0)` lowers `DTW::min_diff` from `1 + 40 π` to `40 π`.  Second, `x` and `y` are
three frames resting at the origin: displacing frame 0 of `x` by `(1, 0, 0)`, away from every frame
of `y`, leaves `DTW::min_diff` at `80 π`. -/
theorem C8_displacement_need_not_increase :
    ((-1 : ℝ) ≠ 0)
      ∧ min_diff Real.sqrt Real.pi 2 (oneFrame 1 identityQ : Action ℝ) (oneFrame 0 identityQ)
          = some (1 + 40 * Real.pi)
      ∧ min_diff Real.sqrt Real.pi 2
          ((oneFrame 1 identityQ : Action ℝ).displace 0 (-1) 0 0) (oneFrame 0 identityQ)
          = some (40 * Real.pi)
      ∧ ¬ ((40 * Real.pi : ℝ) > 1 + 40 * Real.pi)
      ∧ ((1 : ℝ) ≠ 0)
      ∧ min_diff Real.sqrt Real.pi 2 (threeFrames : Action ℝ) threeFrames = some (80 * Real.pi)
      ∧ min_diff Real.sqrt Real.pi 2
          ((threeFrames : Action ℝ).displace 0 1 0 0) threeFrames = some (80 * Real.pi)
      ∧ ¬ ((80 * Real.pi : ℝ) > 80 * Real.pi) := by
  refine ⟨by norm_num, ?_, ?_, by linarith, by norm_num, ?_, ?_, lt_irrefl _⟩
  · rw [min_diff_oneFrame 1 0 identityQ identityQ 2 (le_refl 2), quaternion_distance_identity]
    simp
  · rw [oneFrame_displace, min_diff_oneFrame (1 + -1) 0 identityQ identityQ 2 (le_refl 2),
      quaternion_distance_identity]
    simp
  · exact min_diff_threeFramesFrom 0
  · rw [threeFrames_displace]
    exact min_diff_threeFramesFrom (0 + 1)

/-- C8, amended.  Let `x'` be `x` with only the position of frame `i` displaced by an offset.  If
the displacement brings frame `i` no nearer to the position of any frame of `y`, then
`min_diff x' y ≥ min_diff x y`; if moreover `i` is the last frame of `x` and the displacement moves
it strictly farther from the last frame of `y`, then `min_diff x' y > min_diff x y`. -/
theorem C8_displacement_monotone (x y : Action ℝ) (hx : x.WellFormed) (hy : y.WellFormed)
    (hrows : 1 ≤ x.size) (hcols : 1 ≤ y.size) (i : Nat) (ox oy oz : ℝ)
    (hfar : ∀ (j : Nat) (xp yp : Pose ℝ), x.poses[i]? = some xp → y.poses[j]? = some yp →
      position_distance Real.sqrt xp.position yp.position
        ≤ position_distance Real.sqrt (xp.position.shift ox oy oz) yp.position) :
    ∃ (N : Nat) (v v' : ℝ),
      (∀ fuel, N ≤ fuel →
        min_diff Real.sqrt Real.pi fuel x y = some v
          ∧ min_diff Real.sqrt Real.pi fuel (x.displace i ox oy oz) y = some v')
      ∧ v ≤ v'
      ∧ (i = x.size - 1 →
          (∀ xp yp : Pose ℝ, x.poses[x.size - 1]? = some xp → y.poses[y.size - 1]? = some yp →
            position_distance Real.sqrt xp.position yp.position
              < position_distance Real.sqrt (xp.position.shift ox oy oz) yp.position) →
          v < v') := by
  obtain ⟨N, d, _, hN⟩ := min_diff_total Real.sqrt Real.sqrt_nonneg Real.pi Real.pi_pos x y
    hx hy hrows hcols
  have hsize := displace_size x i ox oy oz
  have hx' : (x.displace i ox oy oz).WellFormed := by
    refine ⟨?_, hx.2⟩
    have := hx.1
    simpa [Action.displace] using this
  obtain ⟨N', d', _, hN'⟩ := min_diff_total Real.sqrt Real.sqrt_nonneg Real.pi Real.pi_pos
    (x.displace i ox oy oz) y hx' hy (by rw [hsize]; exact hrows) hcols
  rw [hsize] at hN'
  -- the per-frame costs of the displaced trajectory, cell by cell
  have hcells : ∀ r, r < x.size → ∀ j, j < y.size →
      ∃ xp yp, x.poses[r]? = some xp ∧ y.poses[j]? = some yp
        ∧ d' r j = (if i = r then
              d r j - position_distance Real.sqrt xp.position yp.position
                + position_distance Real.sqrt (xp.position.shift ox oy oz) yp.position
            else d r j) := by
    intro r hr j hj
    have h1 := (hN (Nat.max N N') (Nat.le_max_left _ _)).1 r hr j hj
    have h2 := (hN' (Nat.max N N') (Nat.le_max_right _ _)).1 r hr j hj
    obtain ⟨xp, yp, hxp, hyp, hd⟩ := frame_distance_displace Real.sqrt Real.pi _ x y i ox oy oz
      r j _ h1
    rw [hd] at h2
    exact ⟨xp, yp, hxp, hyp, (Option.some.inj h2).symm⟩
  have hle : ∀ r, r < x.size → ∀ j, j < y.size → d r j ≤ d' r j := by
    intro r hr j hj
    obtain ⟨xp, yp, hxp, hyp, hc⟩ := hcells r hr j hj
    rw [hc]
    by_cases hir : i = r
    · subst hir
      have := hfar j xp yp hxp hyp
      simp only [if_true]; linarith
    · simp only [hir, if_false, le_refl]
  refine ⟨Nat.max N N', closed_form x.size y.size d, closed_form x.size y.size d', ?_,
    closed_form_mono _ _ hrows hcols _ _ hle, ?_⟩
  · exact fun fuel hf => ⟨(hN fuel (le_trans (Nat.le_max_left _ _) hf)).2,
      (hN' fuel (le_trans (Nat.le_max_right _ _) hf)).2⟩
  · intro hi hstrict
    apply closed_form_strict_mono _ _ hrows hcols _ _ hle
    obtain ⟨xp, yp, hxp, hyp, hc⟩ := hcells (x.size - 1) (by omega) (y.size - 1) (by omega)
    rw [hc]
    have := hstrict xp yp hxp hyp
    simp only [hi, if_true]
    linarith

/-- C2 at a two-frame trajectory against a three-frame one. -/
theorem C2_min_diff_nonneg_witness :
    (twoFrames : Action ℝ).WellFormed ∧ (threeFrames : Action ℝ).WellFormed
      ∧ 1 ≤ (twoFrames : Action ℝ).size ∧ 1 ≤ (threeFrames : Action ℝ).size
      ∧ ∃ (N : Nat) (v : ℝ),
          (∀ fuel, N ≤ fuel →
            min_diff Real.sqrt Real.pi fuel (twoFrames : Action ℝ) threeFrames = some v)
          ∧ 0 ≤ v :=
  ⟨twoFrames_wf, threeFrames_wf, by decide, by decide,
    C2_min_diff_nonneg twoFrames threeFrames twoFrames_wf threeFrames_wf (by decide) (by decide)⟩

/-- C5 at the joint vectors `[1,1,1,1,1,1,2,3]` and `[0,...,0]`. -/
theorem C5_joint_distance_fingers_only_witness :
    8 ≤ (jointsWith 1 2 3 : JointState ℝ).position.length
      ∧ 8 ≤ (zeroJoints : JointState ℝ).position.length
      ∧ ∀ fuel, joint_distance Real.pi fuel (jointsWith 1 2 3 : JointState ℝ) zeroJoints
          = (pos_dist Real.pi fuel 2 0).bind fun a =>
            (pos_dist Real.pi fuel 3 0).bind fun b => some (10 * (a + b)) :=
  ⟨by simp [jointsWith], by simp [zeroJoints],
    (C5_joint_distance_fingers_only (jointsWith 1 2 3) zeroJoints (by simp [jointsWith])
      (by simp [zeroJoints])).1⟩

/-- C8 (amended) at a frame resting on the frame of `y` and displaced by `(1, 0, 0)`. -/
theorem C8_displacement_monotone_witness :
    (oneFrame 0 identityQ : Action ℝ).WellFormed
      ∧ 1 ≤ (oneFrame 0 identityQ : Action ℝ).size
      ∧ (∀ (j : Nat) (xp yp : Pose ℝ),
          (oneFrame 0 identityQ : Action ℝ).poses[0]? = some xp →
          (oneFrame 0 identityQ : Action ℝ).poses[j]? = some yp →
          position_distance Real.sqrt xp.position yp.position
            ≤ position_distance Real.sqrt (xp.position.shift 1 0 0) yp.position)
      ∧ ∃ (N : Nat) (v v' : ℝ),
          (∀ fuel, N ≤ fuel →
            min_diff Real.sqrt Real.pi fuel (oneFrame 0 identityQ : Action ℝ)
                (oneFrame 0 identityQ) = some v
              ∧ min_diff Real.sqrt Real.pi fuel
                  ((oneFrame 0 identityQ : Action ℝ).displace 0 1 0 0) (oneFrame 0 identityQ)
                = some v')
          ∧ v ≤ v' ∧ v < v' :=
  ⟨oneFrame_wf 0 identityQ, by decide, oneFrame_not_nearer, by
    obtain ⟨N, v, v', h1, h2, h3⟩ := C8_displacement_monotone (oneFrame 0 identityQ)
      (oneFrame 0 identityQ) (oneFrame_wf 0 identityQ) (oneFrame_wf 0 identityQ) (by decide)
      (by decide) 0 1 0 0 oneFrame_not_nearer
    exact ⟨N, v, v', h1, h2, h3 rfl oneFrame_farther⟩⟩

end Claims

end DTW
